import Mathlib

/-!
Shallow embedding of the navigation and event core of the ranger file
browser, covering the subsystems named by the specification:

* `History` (src/ranger/container/history.py);
* the signal dispatcher (src/ranger/ext/signals.py);
* `Tab.enter_dir` and friends (src/ranger/core/tab.py);
* `CommandContainer` and the `Command` line helpers
  (src/ranger/api/commands.py);
* the preview cache of `Actions.get_preview` (src/ranger/core/actions.py).

Python dicts are embedded as insertion-ordered association lists, Python
deques as Lean lists (leftmost deque element first), Python `None` as
`Option.none`, exceptions as `Except`, and float priorities as rationals.
-/

namespace Ranger

/-- Association-list lookup: the value stored under key `k`, if any.  Keys
are unique by construction (see `alistSet`), mirroring a Python dict. -/
def alistGet? {κ ν : Type} [DecidableEq κ] (k : κ) : List (κ × ν) → Option ν
  | [] => none
  | (k', v) :: rest => if k = k' then some v else alistGet? k rest

/-- Association-list update, mirroring Python dict assignment `d[k] = v`:
an existing key keeps its position, a new key is appended at the end
(Python dicts preserve insertion order). -/
def alistSet {κ ν : Type} [DecidableEq κ] (k : κ) (v : ν) : List (κ × ν) → List (κ × ν)
  | [] => [(k, v)]
  | (k', v') :: rest => if k = k' then (k, v) :: rest else (k', v') :: alistSet k v rest

/-- Association-list deletion, mirroring Python `del d[k]`. -/
def alistErase {κ ν : Type} [DecidableEq κ] (k : κ) : List (κ × ν) → List (κ × ν)
  | [] => []
  | (k', v') :: rest => if k = k' then rest else (k', v') :: alistErase k rest

instance {ε α : Type} [DecidableEq ε] [DecidableEq α] : DecidableEq (Except ε α) := fun a b =>
  match a, b with
  | Except.error e, Except.error e' =>
      if h : e = e' then isTrue (by rw [h]) else isFalse (fun hh => by cases hh; exact h rfl)
  | Except.ok x, Except.ok y =>
      if h : x = y then isTrue (by rw [h]) else isFalse (fun hh => by cases hh; exact h rfl)
  | Except.error _, Except.ok _ => isFalse (fun hh => by cases hh)
  | Except.ok _, Except.error _ => isFalse (fun hh => by cases hh)

/-! ## History (src/ranger/container/history.py)

The two deques `self.history` and `self.history_forward` are embedded as
lists whose leftmost element is the oldest entry, so that Python
`deque[-1]` is `List.getLast?` and `deque.pop()` drops the last element.
`maxlen` is the optional bound passed to `deque(maxlen = maxlen)`. -/

/-- HistoryEmptyException from src/ranger/container/history.py line 1. -/
inductive HistoryEmptyException : Type where
  | mk
deriving DecidableEq

/-- Append on the right of a bounded deque: `deque.append(x)` drops
elements on the left when the `maxlen` bound is exceeded. -/
def dequePush {α : Type} (maxlen : Option Nat) (l : List α) (x : α) : List α :=
  let l' := l ++ [x]
  match maxlen with
  | none => l'
  | some n => l'.drop (l'.length - n)

/-- History state: the `history` deque (back stack) and the
`history_forward` deque (forward stack). -/
structure History (α : Type) where
  history : List α
  history_forward : List α
  maxlen : Option Nat
deriving DecidableEq

/-- Source History.add: append `item` unless it equals the current top;
a successful append clears the forward deque. -/
def History.add {α : Type} [DecidableEq α] (h : History α) (item : α) : History α :=
  if h.history.length = 0 ∨ h.history.getLast? ≠ some item then
    { h with history := dequePush h.maxlen h.history item, history_forward := [] }
  else h

/-- Source History.top: `self.history[-1]`, raising HistoryEmptyException
on an empty deque. -/
def History.top {α : Type} (h : History α) : Except HistoryEmptyException α :=
  match h.history.getLast? with
  | some x => Except.ok x
  | none => Except.error HistoryEmptyException.mk

/-- Source History.bottom: `self.history[0]`. -/
def History.bottom {α : Type} (h : History α) : Except HistoryEmptyException α :=
  match h.history.head? with
  | some x => Except.ok x
  | none => Except.error HistoryEmptyException.mk

/-- Source History.back: when the back deque has more than one element,
pop its last element and append it to the forward deque; always return
`self.top()` of the resulting state. -/
def History.back {α : Type} (h : History α) : History α × Except HistoryEmptyException α :=
  let h' :=
    if 1 < h.history.length then
      match h.history.getLast? with
      | some x =>
          { h with history := h.history.dropLast,
                   history_forward := dequePush h.maxlen h.history_forward x }
      | none => h
    else h
  (h', h'.top)

/-- Source History.forward: when the forward deque is nonempty, pop its
last element and append it to the back deque; always return `self.top()`
of the resulting state. -/
def History.forward {α : Type} (h : History α) : History α × Except HistoryEmptyException α :=
  let h' :=
    if 0 < h.history_forward.length then
      match h.history_forward.getLast? with
      | some x =>
          { h with history := dequePush h.maxlen h.history x,
                   history_forward := h.history_forward.dropLast }
      | none => h
    else h
  (h', h'.top)

/-- Source History.move: positive moves forward, negative moves back,
zero does nothing and returns Python None (here `Option.none`). -/
def History.move {α : Type} (h : History α) (n : Int) :
    History α × Option (Except HistoryEmptyException α) :=
  if 0 < n then
    let r := h.forward
    (r.1, some r.2)
  else if n < 0 then
    let r := h.back
    (r.1, some r.2)
  else (h, none)

/-- Collapse immediately-adjacent repeated elements of a list, keeping
the first element of every run. -/
def dedupAdj {α : Type} [DecidableEq α] : List α → List α
  | [] => []
  | [x] => [x]
  | x :: y :: rest =>
      if x = y then dedupAdj (y :: rest) else x :: dedupAdj (y :: rest)

/-- Modelled from the spec: `History.rebase` is invoked by
`Tab.inherit_history` (src/ranger/core/tab.py line 105) but no `rebase`
method exists in src/ranger/container/history.py.  Spec section 4.3:
rebase "concatenates `other`'s back-stack with this one's,
de-duplicating immediately-adjacent repeats, and resets the forward
stack to empty".  The back deques are chronological (oldest first), so
the inherited trail of `other` precedes the entries of this History. -/
def History.rebase {α : Type} [DecidableEq α] (h other : History α) : History α :=
  { h with history := dedupAdj (other.history ++ h.history), history_forward := [] }

/-! ## Signal dispatcher (src/ranger/ext/signals.py)

A bound handler is embedded by its clamped `priority`, its `active`
flag, its registration index `idx` (the position of the corresponding
`signal_bind` call), and `stops`, which abstracts whether the bound
callable calls `signal.stop()` when invoked.  The callable itself, weak
references and the `pass_signal` flag play no role in dispatch order
and are not represented. -/

/-- One entry of the handler list kept for a signal name. -/
structure SignalHandler where
  idx : Nat
  priority : ℚ
  active : Bool
  stops : Bool
deriving DecidableEq

/-- Priority clamping from SignalHandler.__init__:
`max(0, min(1, priority))`. -/
def pyClamp (p : ℚ) : ℚ := max 0 (min 1 p)

/-- Stable insertion step of `pySortByPriorityDesc`: the inserted
element passes over elements of strictly greater priority and stops in
front of the first element whose priority is less than or equal to its
own, so elements of equal priority keep their original relative order. -/
def insertByPriority (x : SignalHandler) : List SignalHandler → List SignalHandler
  | [] => [x]
  | y :: ys =>
      if x.priority < y.priority then y :: insertByPriority x ys
      else x :: y :: ys

/-- Embedding of `handlers.sort(key=lambda handler: -handler.priority)`:
a stable sort by descending priority (Python list.sort is stable). -/
def pySortByPriorityDesc : List SignalHandler → List SignalHandler
  | [] => []
  | x :: xs => insertByPriority x (pySortByPriorityDesc xs)

/-- Source signal_bind restricted to one signal name: construct the
handler (clamping the priority), append it to the handler list and
re-sort the list by descending priority. -/
def signal_bind (handlers : List SignalHandler) (idx : Nat) (priority : ℚ)
    (stops : Bool) : List SignalHandler :=
  pySortByPriorityDesc
    (handlers ++ [{ idx := idx, priority := pyClamp priority, active := true, stops := stops }])

/-- Perform a sequence of `signal_bind` calls on one signal name,
numbering the handlers by registration order. -/
def bindManyAux : List (ℚ × Bool) → List SignalHandler → Nat → List SignalHandler
  | [], acc, _ => acc
  | pb :: rest, acc, n => bindManyAux rest (signal_bind acc n pb.1 pb.2) (n + 1)

/-- Handler list that results from binding the given
(priority, stops-on-invoke) pairs in order, starting from no handlers. -/
def bindMany (binds : List (ℚ × Bool)) : List SignalHandler :=
  bindManyAux binds [] 0

/-- Source signal_emit, reduced to the order of invocation: walk the
handler list, skip inactive handlers, invoke each active handler, and
halt as soon as an invoked handler stops the signal.  The result is the
list of registration indices of the invoked handlers, in invocation
order. -/
def signal_emit_order : List SignalHandler → List Nat
  | [] => []
  | h :: hs =>
      if h.active then h.idx :: (if h.stops then [] else signal_emit_order hs)
      else signal_emit_order hs

/-- Clamped priority of the k-th bind of a bind sequence (0 when out of
range; every registration index produced by `bindMany` is in range). -/
def priorityAt (binds : List (ℚ × Bool)) (k : Nat) : ℚ :=
  pyClamp (((binds.get? k).map Prod.fst).getD 0)

/-- Handler produced by the k-th bind of a sequence. -/
def mkHandler (p : Nat × (ℚ × Bool)) : SignalHandler :=
  { idx := p.1, priority := pyClamp p.2.1, active := true, stops := p.2.2 }

/-! ## CommandContainer (src/ranger/api/commands.py)

A Command class is embedded by its identity `id` (Python classes
compare by identity) and its `allow_abbrev` class attribute.  The
`commands` and `aliases` dicts are insertion-ordered association
lists. -/

/-- Identity and `allow_abbrev` attribute of a registered Command
class. -/
structure CmdCls where
  id : Nat
  allow_abbrev : Bool
deriving DecidableEq

/-- State of a CommandContainer: the `commands` dict and the `aliases`
dict. -/
structure CommandContainer where
  commands : List (String × CmdCls)
  aliases : List (String × String)
deriving DecidableEq

/-- Source CommandContainer.alias: only when `old` is a registered
command name, bind `new` directly in the commands dict to the same
class and record the alias mapping; otherwise do nothing. -/
def CommandContainer.alias (c : CommandContainer) (new old : String) : CommandContainer :=
  match alistGet? old c.commands with
  | some v => { c with commands := alistSet new v c.commands,
                       aliases := alistSet new old c.aliases }
  | none => c

/-- Exceptions that CommandContainer.get_command can raise: the bare
`raise KeyError` (and the KeyError escaping from `self.commands[name]`),
and `ValueError("Ambiguous command")`. -/
inductive GetCmdErr : Type where
  | keyError
  | ambiguousValueError
deriving DecidableEq

/-- The list comprehension of get_command: classes of the registered
names that either allow abbreviation and start with `name`, or equal
`name` (Python operator precedence:
`(cls.allow_abbrev and cmd.startswith(name)) or cmd == name`). -/
def cmdMatches (c : CommandContainer) (name : String) : List CmdCls :=
  (c.commands.filter
      (fun p => (p.2.allow_abbrev && List.isPrefixOf name.data p.1.data)
        || decide (p.1 = name))).map Prod.snd

/-- Source CommandContainer.get_command.  With `abbrevFlag` (parameter
`abbrev` in the source) true: an empty match list raises KeyError, a
singleton is returned, and otherwise `self.commands[name]` is evaluated
first — raising KeyError when `name` is not an exact key — before the
membership test that guards `ValueError("Ambiguous command")`.  With
`abbrevFlag` false: plain dict lookup returning Python None (here
`Option.none`) when absent. -/
def CommandContainer.get_command (c : CommandContainer) (name : String)
    (abbrevFlag : Bool) : Except GetCmdErr (Option CmdCls) :=
  if abbrevFlag then
    let lst := cmdMatches c name
    match lst with
    | [] => Except.error GetCmdErr.keyError
    | [single] => Except.ok (some single)
    | _ =>
      match alistGet? name c.commands with
      | none => Except.error GetCmdErr.keyError
      | some v =>
          if v ∈ lst then Except.ok (some v)
          else Except.error GetCmdErr.ambiguousValueError
  else
    Except.ok (alistGet? name c.commands)

/-! ## Command line helpers (src/ranger/api/commands.py)

`setargs` stores the raw line and `self.args = line.split()`; `arg` and
`rest` read tokens from those.  Python str.split() with no argument
splits on runs of whitespace and drops leading and trailing
whitespace. -/

/-- Characters Python str.split() treats as whitespace. -/
def pyIsSpace (c : Char) : Bool :=
  c = ' ' || c = '\t' || c = '\n' || c = '\r' || c = '\x0b' || c = '\x0c'

/-- Helper of `pySplit`: accumulate the current word (reversed) while
scanning. -/
def pySplitAux : List Char → List Char → List (List Char)
  | [], acc => if acc.isEmpty then [] else [acc.reverse]
  | c :: cs, acc =>
      if pyIsSpace c then
        if acc.isEmpty then pySplitAux cs [] else acc.reverse :: pySplitAux cs []
      else pySplitAux cs (c :: acc)

/-- Embedding of Python `line.split()`. -/
def pySplit (line : List Char) : List (List Char) :=
  pySplitAux line []

/-- Source Command.arg: the nth entry of `self.args`, or the empty
string when the index is out of range (`except IndexError`).  Negative
Python indices are not used by the claims and are not modelled. -/
def Command.arg (line : String) (n : Nat) : String :=
  match (pySplit line.data).get? n with
  | some w => String.mk w
  | none => ""

/-- Loop of Command.rest: scan the raw line with the `got_space` flag
and the `word_count` counter exactly as the source does; the scan
returns the suffix `line[i:]` at the first non-space character that
follows a space once `word_count` equals the target, and `none` (for
the final `return ""`) when the loop ends. -/
def restAux (target : Nat) : List Char → Bool → Nat → Option (List Char)
  | [], _, _ => none
  | c :: cs, got_space, word_count =>
      if c = ' ' then
        if got_space then restAux target cs true word_count
        else restAux target cs true (word_count + 1)
      else
        if got_space then
          if word_count = target then some (c :: cs)
          else restAux target cs false word_count
        else restAux target cs false word_count

/-- Source Command.rest on a raw `line` with token offset `shifted`
(the `_shifted` counter): scan for the start of the
`(n + shifted)`-th space-run boundary and return the raw suffix from
there, or the empty string. -/
def Command.rest (line : String) (n shifted : Nat) : String :=
  match restAux (n + shifted) line.data false 0 with
  | some tail => String.mk tail
  | none => ""

/-! ## Tab.enter_dir (src/ranger/core/tab.py)

A shared Directory object is identified by its path (the directory
cache `fm.get_directory` returns one object per path; its internal
mutations — content loading, sort flags, cursor positions — live
outside the Tab state and are not represented).  External collaborators
are collected in `TabEnv`:

* `isdir` embeds `os.path.isdir`;
* `chdir_ok` tells whether `os.chdir(path)` succeeds;
* `resolve` embeds `normpath(join(self.path, expanduser(path)))`;
* `pointed_obj` embeds `directory.pointed_obj`, the path of the entry
  under the cursor of the Directory at the given path (None possible).
-/

/-- External collaborators of Tab.enter_dir. -/
structure TabEnv where
  isdir : String → Bool
  chdir_ok : String → Bool
  resolve : String → String → String
  pointed_obj : String → Option String

/-- Navigation state of one Tab: `path`, `thisdir`, `thisfile`,
`pathway` and the owned History (all directories by path). -/
structure TabState where
  path : String
  thisdir : Option String
  thisfile : Option String
  pathway : List String
  history : History String
deriving DecidableEq

/-- Events a Tab emits on the signal bus during the modelled
operations. -/
inductive TabEvent : Type where
  | cd (previous : Option String) (new : Option String)
deriving DecidableEq

/-- Embedding of `os.path.join` restricted to the two-argument uses in
tab.py. -/
def pyJoin (a b : String) : String :=
  if b.data.head? = some '/' then b
  else if a = "" ∨ a.data.getLast? = some '/' then a ++ b
  else a ++ "/" ++ b

/-- Embedding of Python `str.split(sep)` for a one-character separator:
split at every occurrence, keeping empty pieces. -/
def splitOnSepAux (sep : Char) : List Char → List Char → List (List Char)
  | [], acc => [acc.reverse]
  | c :: cs, acc =>
      if c = sep then acc.reverse :: splitOnSepAux sep cs []
      else splitOnSepAux sep cs (c :: acc)

/-- Pathway loop of enter_dir for a non-root path: `currentpath = '/'`,
then for every component of `path.split('/')` join it onto
`currentpath` and collect the Directory at the joined path. -/
def buildPathway (path : String) : List String :=
  ((splitOnSepAux '/' path.data []).foldl
      (fun acc d =>
        let np := pyJoin acc.1 (String.mk d)
        (np, acc.2 ++ [np]))
      ("/", [])).2

/-- Source Tab.enter_dir.  Returns the new tab state, the Python return
value (None / False / True) and the emitted events.  A `None` path
returns None; a resolved path that is not a directory returns False
unchanged; a failing `os.chdir` returns True unchanged (the
`except: return True` branch); otherwise path, thisdir, pathway and
thisfile are updated, the new directory is added to the History when
`recordHistory` (parameter `history` in the source) is set, and a
`cd` signal is emitted. -/
def Tab.enter_dir (env : TabEnv) (t : TabState) (path : Option String)
    (recordHistory : Bool) : TabState × Option Bool × List TabEvent :=
  match path with
  | none => (t, none, [])
  | some rawPath =>
    let previous := t.thisdir
    let path := env.resolve t.path rawPath
    if ¬ env.isdir path then (t, some false, [])
    else
      let new_thisdir := path
      if ¬ env.chdir_ok path then (t, some true, [])
      else
        let pathway := if path = "/" then ["/"] else buildPathway path
        let thisfile := env.pointed_obj path
        let hist := if recordHistory then t.history.add new_thisdir else t.history
        ({ path := path, thisdir := some new_thisdir, thisfile := thisfile,
           pathway := pathway, history := hist },
         some true,
         [TabEvent.cd previous (some new_thisdir)])

/-- Source Tab.inherit_history: `self.history.rebase(other_history)`. -/
def Tab.inherit_history (t : TabState) (other_history : History String) : TabState :=
  { t with history := t.history.rebase other_history }

/-! ## Preview cache (src/ranger/core/actions.py, get_preview)

`self.previews` maps a path to a per-path dict holding the `loading`
flag, the later-added `foundpreview` flag and the dimension-keyed
cached values.  A cached value is `Option String`, where `none` embeds
a stored Python None (exit codes 1 and "other").  `get_preview` is
modelled inside its `preview_script` branch (the claims all live
there); it returns the new cache state, the Python return value (None
or the found cached value — indistinguishable to the caller when the
cached value is None) and the submitted CommandLoader job, if any, as
its `(path, width, height)` arguments. -/

/-- Per-path entry of `self.previews`. -/
structure PrevData where
  loading : Bool
  foundpreview : Option Bool
  cache : List ((Int × Int) × Option String)
deriving DecidableEq

/-- Dimension-key lookup `data.get((a, b))` on one entry. -/
def PrevData.dget (d : PrevData) (k : Int × Int) : Option (Option String) :=
  alistGet? k d.cache

/-- The nested dict lookup of get_preview:
`data.get((-1,-1), data.get((width,-1), data.get((-1,height),
data.get((width,height), False))))`.  The result is `none` exactly when
none of the four keys is present (the `False` sentinel, which no cached
value can equal). -/
def findVal (d : PrevData) (w h : Int) : Option (Option String) :=
  match d.dget (-1, -1) with
  | some v => some v
  | none =>
    match d.dget (w, -1) with
    | some v => some v
    | none =>
      match d.dget (-1, h) with
      | some v => some v
      | none => d.dget (w, h)

/-- State of `self.previews`. -/
abbrev Previews : Type := List (String × PrevData)

/-- Source Actions.get_preview (preview-script branch).  Missing entry:
create it with `loading = False` (no loading check on this branch, per
the try/except/else structure).  Existing entry with `loading`: return
None with no side effect.  Otherwise look up a cached value; on a hit
return it, on a miss set `loading`, submit the generation job and
return None. -/
def get_preview (st : Previews) (path : String) (width height : Int) :
    Previews × Option String × Option (String × Int × Int) :=
  match alistGet? path st with
  | some data =>
    if data.loading then (st, none, none)
    else
      match findVal data width height with
      | some found => (st, found, none)
      | none =>
          (alistSet path { data with loading := true } st, none,
           some (path, width, height))
  | none =>
    let data : PrevData := { loading := false, foundpreview := none, cache := [] }
    let st1 := alistSet path data st
    match findVal data width height with
    | some found => (st1, found, none)
    | none =>
        (alistSet path { data with loading := true } st1, none,
         some (path, width, height))

/-- Completion callback on_after of the job submitted by
`get_preview st path width height`, applied when the job exits with
`exitCode` and captured stdout `content`; `fileHead` embeds
`open(path, 'r').read(1024 * 32)` for exit code 2.  The callback
mutates the dict object captured by the closure; when that dict has
been removed from `self.previews` (invalidated mid-flight) the
mutation is unobservable and the cache state is unchanged —
`self.previews[path]` is never recreated. -/
def on_after (st : Previews) (path : String) (width height : Int)
    (exitCode : Int) (content : String) (fileHead : String) : Previews :=
  match alistGet? path st with
  | none => st
  | some d =>
    let d := { d with foundpreview := some true }
    let d :=
      if exitCode = 0 then { d with cache := alistSet (width, height) (some content) d.cache }
      else if exitCode = 3 then { d with cache := alistSet (-1, height) (some content) d.cache }
      else if exitCode = 4 then { d with cache := alistSet (width, -1) (some content) d.cache }
      else if exitCode = 5 then { d with cache := alistSet (-1, -1) (some content) d.cache }
      else if exitCode = 1 then
        { d with cache := alistSet (-1, -1) none d.cache, foundpreview := some false }
      else if exitCode = 2 then { d with cache := alistSet (-1, -1) (some fileHead) d.cache }
      else { d with cache := alistSet (-1, -1) none d.cache }
    alistSet path { d with loading := false } st

/-- Destroy callback on_destroy of a submitted job: delete the entry
for the path, ignoring a missing entry. -/
def on_destroy (st : Previews) (path : String) : Previews :=
  alistErase path st

/-- Source Actions.update_preview: delete the cache entry, returning
False (`some false` here) when it was missing and Python None
(`Option.none`) on success. -/
def update_preview (st : Previews) (path : String) : Previews × Option Bool :=
  match alistGet? path st with
  | some _ => (alistErase path st, none)
  | none => (st, some false)

/-! ## Auxiliary notions for the dispatch-order development -/

/-- Effect of the stable re-sort on an already-sorted handler list with
one handler appended: the new handler moves left past nothing — it
stays behind every handler of greater-or-equal priority and in front of
the first handler of strictly smaller priority
(see `pySort_sorted_append`). -/
def insertTail (x : SignalHandler) : List SignalHandler → List SignalHandler
  | [] => [x]
  | y :: ys => if y.priority < x.priority then x :: y :: ys else y :: insertTail x ys

/-- Weak sortedness by descending priority. -/
def wge (a b : SignalHandler) : Prop := b.priority ≤ a.priority

/-- Dispatch-order invariant of the handler list: descending priority,
ties ordered by registration index. -/
def hrel (a b : SignalHandler) : Prop :=
  b.priority < a.priority ∨ (a.priority = b.priority ∧ a.idx < b.idx)

/-! ## Concrete states used by individual claims -/

/-- Registry with exactly the commands edit and exit, both allowing
abbreviation (spec section 8 example). -/
def c2reg : CommandContainer :=
  { commands := [("edit", { id := 0, allow_abbrev := true }),
                 ("exit", { id := 1, allow_abbrev := true })],
    aliases := [] }

/-- Preview entry holding a value under the exact key (80, 24) and a
different value under the wildcard key (-1, -1), not loading. -/
def c1data : PrevData :=
  { loading := false, foundpreview := some true,
    cache := [((80, 24), some "exact"), ((-1, -1), some "wild")] }

/-- Tab environment in which "/a" is an existing directory but every
os.chdir call fails; path resolution is the identity on the raw path. -/
def c3env : TabEnv :=
  { isdir := fun s => decide (s = "/a"),
    chdir_ok := fun _ => false,
    resolve := fun _ raw => raw,
    pointed_obj := fun _ => none }

/-- Fresh tab at "/" with an empty history. -/
def c3tab : TabState :=
  { path := "/", thisdir := none, thisfile := none, pathway := [],
    history := { history := [], history_forward := [], maxlen := none } }

/-- Preview cache right after a first request for path "p" submitted a
generation job. -/
def c4st1 : Previews := (get_preview ([] : Previews) "p" 80 24).1

/-- The same cache after the job completed with the abnormal exit code
7. -/
def c4st2 : Previews := on_after c4st1 "p" 80 24 7 "out" "head"

/-- Registry with the single command edit used to witness aliasing. -/
def c10reg : CommandContainer :=
  { commands := [("edit", { id := 0, allow_abbrev := true })], aliases := [] }

/-! # Theorems

General lemmas about the embedded dict and deque operations come first,
then the claim theorems. -/

/-- Updating a key and reading it back yields the stored value. -/
theorem alistGet?_set_self {κ ν : Type} [DecidableEq κ] (k : κ) (v : ν) :
    ∀ (l : List (κ × ν)), alistGet? k (alistSet k v l) = some v
  | [] => by simp [alistGet?, alistSet]
  | (k', v') :: rest => by
    by_cases h : k = k'
    · simp [alistGet?, alistSet, h]
    · simp [alistGet?, alistSet, h, alistGet?_set_self k v rest]

/-- Updating one key leaves every other key unchanged. -/
theorem alistGet?_set_ne {κ ν : Type} [DecidableEq κ] {k k' : κ} (h : k ≠ k') (v : ν) :
    ∀ (l : List (κ × ν)), alistGet? k (alistSet k' v l) = alistGet? k l
  | [] => by simp [alistGet?, alistSet, h]
  | (k'', v'') :: rest => by
    by_cases h2 : k' = k''
    · subst h2
      simp [alistGet?, alistSet, h]
    · by_cases h3 : k = k''
      · simp [alistGet?, alistSet, h2, h3]
      · simp [alistGet?, alistSet, h2, h3, alistGet?_set_ne h v rest]

/-- The stored pair is a member of the updated association list. -/
theorem mem_alistSet_self {κ ν : Type} [DecidableEq κ] (k : κ) (v : ν) :
    ∀ (l : List (κ × ν)), (k, v) ∈ alistSet k v l
  | [] => by simp [alistSet]
  | (k', v') :: rest => by
    by_cases h : k = k'
    · simp [alistSet, h]
    · simp [alistSet, h, mem_alistSet_self k v rest]

/-- De-duplication of adjacent repeats keeps the first element of a
nonempty list. -/
theorem dedupAdj_cons {α : Type} [DecidableEq α] :
    ∀ (y : α) (rest : List α), ∃ t, dedupAdj (y :: rest) = y :: t
  | _, [] => ⟨[], rfl⟩
  | y, z :: rest => by
    by_cases hyz : y = z
    · obtain ⟨t, ht⟩ := dedupAdj_cons z rest
      exact ⟨t, by simp [dedupAdj, hyz, ht]⟩
    · exact ⟨dedupAdj (z :: rest), by simp [dedupAdj, hyz]⟩

/-- The de-duplicated list has no adjacent repeats. -/
theorem dedupAdj_chain' {α : Type} [DecidableEq α] :
    ∀ (l : List α), (dedupAdj l).Chain' (· ≠ ·)
  | [] => by simp [dedupAdj]
  | [x] => by simp [dedupAdj]
  | x :: y :: rest => by
    by_cases hxy : x = y
    · simpa [dedupAdj, hxy] using dedupAdj_chain' (y :: rest)
    · have ih := dedupAdj_chain' (y :: rest)
      obtain ⟨t, ht⟩ := dedupAdj_cons y rest
      rw [show dedupAdj (x :: y :: rest) = x :: dedupAdj (y :: rest) by simp [dedupAdj, hxy]]
      rw [ht] at ih ⊢
      exact List.Chain'.cons hxy ih

/-- De-duplication only removes elements: the result is an ordered
sublist of the input. -/
theorem dedupAdj_sublist {α : Type} [DecidableEq α] :
    ∀ (l : List α), List.Sublist (dedupAdj l) l
  | [] => by simp [dedupAdj]
  | [x] => by simp [dedupAdj]
  | x :: y :: rest => by
    by_cases hxy : x = y
    · rw [show dedupAdj (x :: y :: rest) = dedupAdj (y :: rest) by simp [dedupAdj, hxy]]
      exact (dedupAdj_sublist (y :: rest)).cons x
    · rw [show dedupAdj (x :: y :: rest) = x :: dedupAdj (y :: rest) by simp [dedupAdj, hxy]]
      exact (dedupAdj_sublist (y :: rest)).cons₂ x

/-- C9 counterexample: on a History with zero entries, back() leaves
both stacks unchanged but raises HistoryEmptyException instead of
returning the current top element, so the claim fails for the empty
History. -/
theorem C9_counterexample :
    History.back { history := ([] : List Nat), history_forward := [], maxlen := none }
      = ({ history := [], history_forward := [], maxlen := none },
         Except.error HistoryEmptyException.mk) := by
  decide

/-- C9 (amended): back() with at most one back entry and forward() with
an empty forward stack leave both stacks unchanged; they return the
current top element when the back stack is nonempty and raise
HistoryEmptyException when the History has zero entries. -/
theorem C9_small_noop {α : Type} (h : History α) :
    (h.history.length ≤ 1 →
      h.back.1 = h
      ∧ (∀ x, h.history.getLast? = some x → h.back.2 = Except.ok x)
      ∧ (h.history = [] → h.back.2 = Except.error HistoryEmptyException.mk))
    ∧ (h.history_forward = [] →
      h.forward.1 = h
      ∧ (∀ x, h.history.getLast? = some x → h.forward.2 = Except.ok x)
      ∧ (h.history = [] → h.forward.2 = Except.error HistoryEmptyException.mk)) := by
  constructor
  · intro hlen
    have hnot : ¬ 1 < h.history.length := by omega
    refine ⟨by simp [History.back, hnot], ?_, ?_⟩
    · intro x hx
      simp [History.back, hnot, History.top, hx]
    · intro hnil
      simp [History.back, hnot, History.top, hnil]
  · intro hfwd
    have hnot : ¬ 0 < h.history_forward.length := by simp [hfwd]
    refine ⟨by simp [History.forward, hnot], ?_, ?_⟩
    · intro x hx
      simp [History.forward, hnot, History.top, hx]
    · intro hnil
      simp [History.forward, hnot, History.top, hnil]

/-- C9 witness: a one-entry History is left unchanged by back(), which
returns the single entry. -/
theorem C9_witness :
    (History.back { history := ([5] : List Nat), history_forward := [], maxlen := none }).1
      = { history := [5], history_forward := [], maxlen := none }
    ∧ (History.back { history := ([5] : List Nat), history_forward := [], maxlen := none }).2
      = Except.ok 5 := by
  have h5 := C9_small_noop
    (h := { history := ([5] : List Nat), history_forward := [], maxlen := none })
  exact ⟨(h5.1 (by decide)).1, (h5.1 (by decide)).2.1 5 (by decide)⟩

/-- C6: rebase concatenates the back stack of the other History (first,
chronologically) with this one, de-duplicating immediately-adjacent
repeats, and resets the forward stack to empty; the result has no
adjacent repeats and is an ordered sublist of the concatenation; and
Tab.inherit_history performs exactly this rebase on the tab's own
History, leaving every other tab field unchanged. -/
theorem C6_rebase_inherit {α : Type} [DecidableEq α] (h other : History α)
    (t : TabState) (oh : History String) :
    (h.rebase other).history = dedupAdj (other.history ++ h.history)
    ∧ (h.rebase other).history_forward = []
    ∧ ((h.rebase other).history).Chain' (· ≠ ·)
    ∧ List.Sublist (h.rebase other).history (other.history ++ h.history)
    ∧ Tab.inherit_history t oh = { t with history := t.history.rebase oh } := by
  refine ⟨rfl, rfl, ?_, ?_, rfl⟩
  · exact dedupAdj_chain' (other.history ++ h.history)
  · exact dedupAdj_sublist (other.history ++ h.history)

/-- A successful association-list lookup comes from a member pair. -/
theorem mem_of_alistGet? {κ ν : Type} [DecidableEq κ] {k : κ} {v : ν} :
    ∀ {l : List (κ × ν)}, alistGet? k l = some v → (k, v) ∈ l
  | [], h => by simp [alistGet?] at h
  | (k', v') :: rest, h => by
    by_cases hk : k = k'
    · subst hk
      simp [alistGet?] at h
      subst h
      exact List.mem_cons_self _ _
    · have hr := mem_of_alistGet? (l := rest) (by simpa [alistGet?, hk] using h)
      exact List.mem_cons_of_mem _ hr

/-- Whenever `name` is an exact key of the commands dict, the class
stored under it appears in the abbreviation match list for `name`
(its pair satisfies the `cmd == name` disjunct). -/
theorem get_mem_cmdMatches {c : CommandContainer} {name : String} {v : CmdCls}
    (hv : alistGet? name c.commands = some v) : v ∈ cmdMatches c name := by
  unfold cmdMatches
  refine List.mem_map.mpr ⟨(name, v), List.mem_filter.mpr ⟨mem_of_alistGet? hv, ?_⟩, rfl⟩
  simp

/-- C2: with exactly the commands edit and exit registered, both
allowing abbreviation, get_command("e", true) raises KeyError — coming
from the unguarded `self.commands[name]` dict access — and not the
Ambiguous error the claim describes; indeed on every input get_command
either raises KeyError or returns, so the
`ValueError("Ambiguous command")` statement is unreachable (whenever
`name` is an exact key, its class is a member of the match list). -/
theorem C2_ambiguity_is_keyerror :
    CommandContainer.get_command c2reg "e" true = Except.error GetCmdErr.keyError
    ∧ ∀ (c : CommandContainer) (name : String) (ab : Bool),
        CommandContainer.get_command c name ab = Except.error GetCmdErr.keyError
        ∨ ∃ r, CommandContainer.get_command c name ab = Except.ok r := by
  refine ⟨by decide, ?_⟩
  intro c name ab
  unfold CommandContainer.get_command
  cases ab with
  | false => exact Or.inr ⟨alistGet? name c.commands, rfl⟩
  | true =>
    simp only [if_true]
    cases hm : cmdMatches c name with
    | nil => exact Or.inl rfl
    | cons a rest =>
      cases rest with
      | nil => exact Or.inr ⟨some a, rfl⟩
      | cons b rest2 =>
        cases hg : alistGet? name c.commands with
        | none => exact Or.inl rfl
        | some v =>
          have hv : v ∈ cmdMatches c name := get_mem_cmdMatches hg
          rw [hm] at hv
          refine Or.inr ⟨some v, ?_⟩
          simp [hv]

/-- C3 counterexample: with the resolved path "/a" an existing
directory and os.chdir failing, enter_dir returns True with the tab
state fully unchanged — thisdir stays unset, the history stays empty
and no cd event is emitted — refuting the claim that the tab state is
still updated. -/
theorem C3_counterexample :
    Tab.enter_dir c3env c3tab (some "/a") true = (c3tab, some true, [])
    ∧ c3tab.thisdir = none ∧ c3tab.history.history = [] := by
  refine ⟨by decide, rfl, rfl⟩

/-- C3 (amended): when the resolved path is an existing directory but
changing the OS working directory fails, enter_dir returns True
immediately and aborts: path, thisdir, thisfile, pathway and history
are all unchanged, no history entry is recorded and no cd event is
emitted. -/
theorem C3_chdir_failure (env : TabEnv) (t : TabState) (p : String) (record : Bool)
    (hdir : env.isdir (env.resolve t.path p) = true)
    (hchdir : env.chdir_ok (env.resolve t.path p) = false) :
    Tab.enter_dir env t (some p) record = (t, some true, []) := by
  simp [Tab.enter_dir, hdir, hchdir]

/-- C3 witness: the amended behavior at the concrete failing
environment, without history recording. -/
theorem C3_witness :
    Tab.enter_dir c3env c3tab (some "/a") false = (c3tab, some true, []) :=
  C3_chdir_failure c3env c3tab "/a" false (by decide) (by decide)

/-- C5: on the raw line "open file name" with no alias shift, rest(0)
evaluates to the empty string — not the whole line as the claim and the
docstring of Command.rest state — because the scan starts with
got_space False and so can never match the 0th token; rest(1) and
arg(5) behave as claimed. -/
theorem C5_rest_of_zero :
    Command.rest "open file name" 0 0 = ""
    ∧ Command.rest "open file name" 1 0 = "file name"
    ∧ Command.arg "open file name" 5 = "" := by
  exact ⟨by decide, by decide, by decide⟩

/-- C10: aliasing new to a registered old binds new directly in the
commands map to the same class and records the alias mapping; exact
lookup of new then returns that class, an abbreviation lookup of new
itself returns it through the exact-name tie-break, and new
participates in abbreviation matching for every query it extends;
aliasing to an unregistered old changes nothing. -/
theorem C10_alias (c : CommandContainer) (new old : String) (v : CmdCls) :
    (alistGet? old c.commands = some v →
      alistGet? new (c.alias new old).commands = some v
      ∧ alistGet? new (c.alias new old).aliases = some old
      ∧ (c.alias new old).get_command new false = Except.ok (some v)
      ∧ (c.alias new old).get_command new true = Except.ok (some v)
      ∧ ∀ q : String, v.allow_abbrev = true → List.isPrefixOf q.data new.data = true →
          v ∈ cmdMatches (c.alias new old) q)
    ∧ (alistGet? old c.commands = none → c.alias new old = c) := by
  constructor
  · intro hold
    have hc : (c.alias new old).commands = alistSet new v c.commands := by
      simp [CommandContainer.alias, hold]
    have ha : (c.alias new old).aliases = alistSet new old c.aliases := by
      simp [CommandContainer.alias, hold]
    have g1 : alistGet? new (c.alias new old).commands = some v := by
      rw [hc]
      exact alistGet?_set_self new v c.commands
    have g2 : alistGet? new (c.alias new old).aliases = some old := by
      rw [ha]
      exact alistGet?_set_self new old c.aliases
    have g4 : (c.alias new old).get_command new true = Except.ok (some v) := by
      have hv : v ∈ cmdMatches (c.alias new old) new := get_mem_cmdMatches g1
      unfold CommandContainer.get_command
      simp only [if_true]
      cases hm : cmdMatches (c.alias new old) new with
      | nil => rw [hm] at hv; cases hv
      | cons a rest =>
        cases rest with
        | nil =>
          rw [hm] at hv
          simp only [List.mem_singleton] at hv
          simp [hv]
        | cons b rest2 =>
          rw [hm] at hv
          simp [g1, hv]
    refine ⟨g1, g2, ?_, g4, ?_⟩
    · simp [CommandContainer.get_command, g1]
    · intro q hab hq
      unfold cmdMatches
      refine List.mem_map.mpr ⟨(new, v), List.mem_filter.mpr ⟨?_, ?_⟩, rfl⟩
      · rw [hc]
        exact mem_alistSet_self new v c.commands
      · simp [hab, hq]
  · intro hold
    simp [CommandContainer.alias, hold]

/-- C10 witness: aliasing e to edit on a one-command registry makes
both the exact and the abbreviation lookup of e return the edit
class. -/
theorem C10_witness :
    alistGet? "e" ((c10reg.alias "e" "edit").commands)
      = some { id := 0, allow_abbrev := true }
    ∧ (c10reg.alias "e" "edit").get_command "e" true
      = Except.ok (some { id := 0, allow_abbrev := true }) := by
  have h := (C10_alias c10reg "e" "edit" { id := 0, allow_abbrev := true }).1 (by decide)
  exact ⟨h.1, h.2.2.2.1⟩

/-- C1 counterexample: an entry holding cached values under both the
exact key (80, 24) and the wildcard key (-1, -1) makes
get_preview(p, 80, 24) return the wildcard value "wild", not the
exact-dimension value "exact", refuting the claimed priority order. -/
theorem C1_counterexample :
    (get_preview [("p", c1data)] "p" 80 24).2.1 = some "wild"
    ∧ c1data.dget (80, 24) = some (some "exact")
    ∧ ("wild" : String) ≠ "exact" := by
  exact ⟨by decide, by decide, by decide⟩

/-- C1 (amended): the cached-value search order is the reverse of the
claimed one: the both-wildcards key (-1,-1) is consulted first, then
(width,-1), then (-1,height), and the exact (width,height) key last;
on a present, non-loading entry the call returns the first hit in that
order and submits no job. -/
theorem C1_lookup_order (st : Previews) (path : String) (w h : Int) (d : PrevData)
    (hget : alistGet? path st = some d) (hload : d.loading = false) :
    (∀ v, d.dget (-1, -1) = some v →
        get_preview st path w h = (st, v, none))
    ∧ (d.dget (-1, -1) = none → ∀ v, d.dget (w, -1) = some v →
        get_preview st path w h = (st, v, none))
    ∧ (d.dget (-1, -1) = none → d.dget (w, -1) = none →
        ∀ v, d.dget (-1, h) = some v →
        get_preview st path w h = (st, v, none))
    ∧ (d.dget (-1, -1) = none → d.dget (w, -1) = none → d.dget (-1, h) = none →
        ∀ v, d.dget (w, h) = some v →
        get_preview st path w h = (st, v, none)) := by
  refine ⟨?_, ?_, ?_, ?_⟩
  · intro v hv
    simp [get_preview, hget, hload, findVal, hv]
  · intro k1 v hv
    simp [get_preview, hget, hload, findVal, k1, hv]
  · intro k1 k2 v hv
    simp [get_preview, hget, hload, findVal, k1, k2, hv]
  · intro k1 k2 k3 v hv
    simp [get_preview, hget, hload, findVal, k1, k2, k3, hv]

/-- C1 witness: the amended order evaluated on the concrete two-key
entry: the wildcard value is returned. -/
theorem C1_witness :
    get_preview [("p", c1data)] "p" 80 24 = ([("p", c1data)], some "wild", none) :=
  (C1_lookup_order [("p", c1data)] "p" 80 24 c1data (by decide) (by decide)).1
    (some "wild") (by decide)

/-- C4 counterexample: after the job for "p" completes with the
abnormal exit code 7, a None value IS cached under the (-1,-1) key, and
the next get_preview call returns without submitting a new job —
refuting the claimed cache-nothing, retry-next-time behavior. -/
theorem C4_counterexample :
    alistGet? "p" c4st2
      = some { loading := false, foundpreview := some true, cache := [((-1, -1), none)] }
    ∧ (get_preview c4st2 "p" 80 24).2.2 = none := by
  exact ⟨by decide, by decide⟩

/-- C4 (amended): an exit code other than 0,1,2,3,4,5 caches None
under the (-1,-1) wildcard key, keeps foundpreview True and clears
loading; every subsequent get_preview of the path, at any dimensions,
then finds that None and returns it without submitting a new job — the
failed run is cached as a no-content result, not retried. -/
theorem C4_abnormal_exit (st : Previews) (p : String) (w h e : Int)
    (content fileHead : String) (d : PrevData)
    (hget : alistGet? p st = some d)
    (h0 : e ≠ 0) (h1 : e ≠ 1) (h2 : e ≠ 2) (h3 : e ≠ 3) (h4 : e ≠ 4) (h5 : e ≠ 5) :
    alistGet? p (on_after st p w h e content fileHead)
      = some { loading := false, foundpreview := some true,
               cache := alistSet (-1, -1) none d.cache }
    ∧ ∀ w' h', get_preview (on_after st p w h e content fileHead) p w' h'
        = (on_after st p w h e content fileHead, none, none) := by
  have hafter : on_after st p w h e content fileHead
      = alistSet p { loading := false, foundpreview := some true,
                     cache := alistSet (-1, -1) none d.cache } st := by
    simp [on_after, hget, h0, h1, h2, h3, h4, h5]
  have hg2 : alistGet? p (on_after st p w h e content fileHead)
      = some { loading := false, foundpreview := some true,
               cache := alistSet (-1, -1) none d.cache } := by
    rw [hafter]
    exact alistGet?_set_self _ _ _
  refine ⟨hg2, ?_⟩
  intro w' h'
  simp [get_preview, hg2, findVal, PrevData.dget, alistGet?_set_self]

/-- C4 witness: the amended behavior at exit code 7 on the concrete
one-entry cache. -/
theorem C4_witness :
    alistGet? "p" c4st2
      = some { loading := false, foundpreview := some true,
               cache := alistSet (-1, -1) none [] }
    ∧ get_preview c4st2 "p" 40 20 = (c4st2, none, none) := by
  have hc := C4_abnormal_exit c4st1 "p" 80 24 7 "out" "head"
    { loading := true, foundpreview := none, cache := [] }
    (by decide) (by decide) (by decide) (by decide) (by decide) (by decide) (by decide)
  exact ⟨hc.1, hc.2 40 20⟩

/-- Whatever the exit code, the completion callback on a still-present
entry stores a record whose loading flag is cleared. -/
theorem on_after_loading_false (st : Previews) (p : String) (w h e : Int)
    (c f : String) (d : PrevData) (hd : alistGet? p st = some d) :
    ∃ d', alistGet? p (on_after st p w h e c f) = some d' ∧ d'.loading = false := by
  unfold on_after
  rw [hd]
  exact ⟨_, alistGet?_set_self _ _ _, rfl⟩

/-- C8: the loading flag serializes preview jobs per path: a call on a
loading entry is a pure pending result with no side effect; a call
submits a job only if the entry was absent or not loading, and leaves
the entry loading; no get_preview call ever turns a loading entry into
a non-loading one (only the completion callback clears the flag); and
from an empty cache two consecutive calls for the same path return
pending twice while submitting exactly one job. -/
theorem C8_single_job (st : Previews) (p q : String) (w h : Int) :
    (∀ d, alistGet? p st = some d → d.loading = true →
      get_preview st p w h = (st, none, none))
    ∧ ((get_preview st p w h).2.2 ≠ none →
        (∀ d, alistGet? p st = some d → d.loading = false)
        ∧ ∃ d', alistGet? p (get_preview st p w h).1 = some d' ∧ d'.loading = true)
    ∧ (∀ d, alistGet? q st = some d → d.loading = true →
        ∃ d', alistGet? q (get_preview st p w h).1 = some d' ∧ d'.loading = true)
    ∧ (∀ e c f d, alistGet? p st = some d →
        ∃ d', alistGet? p (on_after st p w h e c f) = some d' ∧ d'.loading = false)
    ∧ (get_preview ([] : Previews) p w h
        = ([(p, { loading := true, foundpreview := none, cache := [] })], none,
           some (p, w, h))
      ∧ get_preview [(p, { loading := true, foundpreview := none, cache := [] })] p w h
        = ([(p, { loading := true, foundpreview := none, cache := [] })], none, none)) := by
  refine ⟨?_, ?_, ?_, ?_, ?_, ?_⟩
  · intro d hd hl
    simp [get_preview, hd, hl]
  · intro hjob
    cases hd : alistGet? p st with
    | none =>
      constructor
      · intro d hdd
        cases hdd
      · refine ⟨{ loading := true, foundpreview := none, cache := [] }, ?_, rfl⟩
        simp [get_preview, hd, findVal, PrevData.dget, alistGet?, alistGet?_set_self]
    | some d =>
      by_cases hl : d.loading
      · exfalso
        apply hjob
        simp [get_preview, hd, hl]
      · cases hf : findVal d w h with
        | some found =>
          exfalso
          apply hjob
          simp [get_preview, hd, hl, hf]
        | none =>
          constructor
          · intro d2 hd2
            cases hd2
            simpa using hl
          · refine ⟨{ d with loading := true }, ?_, rfl⟩
            simp [get_preview, hd, hl, hf, alistGet?_set_self]
  · intro d hd hl
    cases hdp : alistGet? p st with
    | none =>
      have hqp : q ≠ p := by
        intro hqp
        rw [hqp, hdp] at hd
        cases hd
      refine ⟨d, ?_, hl⟩
      simp [get_preview, hdp, findVal, PrevData.dget, alistGet?,
        alistGet?_set_ne hqp, hd]
    | some dp =>
      by_cases hlp : dp.loading
      · refine ⟨d, ?_, hl⟩
        simp [get_preview, hdp, hlp, hd]
      · cases hf : findVal dp w h with
        | some found =>
          refine ⟨d, ?_, hl⟩
          simp [get_preview, hdp, hlp, hf, hd]
        | none =>
          by_cases hqp : q = p
          · subst hqp
            rw [hd] at hdp
            cases hdp
            refine ⟨{ d with loading := true }, ?_, rfl⟩
            simp [get_preview, hd, hlp, hf, alistGet?_set_self]
          · refine ⟨d, ?_, hl⟩
            simp [get_preview, hdp, hlp, hf, alistGet?_set_ne hqp, hd]
  · intro e c f d hd
    exact on_after_loading_false st p w h e c f d hd
  · simp [get_preview, alistGet?, findVal, PrevData.dget, alistSet]
  · simp [get_preview, alistGet?]

/-- C8 witness: a call on an entry whose job is outstanding returns
pending with no side effect. -/
theorem C8_witness :
    get_preview [("p", { loading := true, foundpreview := none, cache := [] })] "p" 80 24
      = ([("p", { loading := true, foundpreview := none, cache := [] })], none, none) :=
  (C8_single_job [("p", { loading := true, foundpreview := none, cache := [] })]
      "p" "p" 80 24).1
    { loading := true, foundpreview := none, cache := [] } (by decide) (by decide)

/-- The dispatch-order invariant implies weak descending priority. -/
theorem hrel_le {a b : SignalHandler} (h : hrel a b) : b.priority ≤ a.priority := by
  rcases h with h | ⟨h, _⟩
  · exact le_of_lt h
  · exact le_of_eq h.symm

/-- Stable re-sort of a sorted list with one element appended: the new
element is inserted past every element of greater-or-equal priority
and in front of the first element of strictly smaller priority. -/
theorem pySort_sorted_append (x : SignalHandler) :
    ∀ (l : List SignalHandler), l.Pairwise wge →
      pySortByPriorityDesc (l ++ [x]) = insertTail x l
  | [], _ => rfl
  | a :: l, hp => by
    have hl : l.Pairwise wge := (List.pairwise_cons.mp hp).2
    have ha : ∀ y ∈ l, wge a y := (List.pairwise_cons.mp hp).1
    have ih := pySort_sorted_append x l hl
    show insertByPriority a (pySortByPriorityDesc (l ++ [x])) = insertTail x (a :: l)
    rw [ih]
    by_cases hax : a.priority < x.priority
    · have hxl : insertTail x l = x :: l := by
        cases l with
        | nil => rfl
        | cons y ys =>
          have hy : y.priority < x.priority :=
            lt_of_le_of_lt (ha y (List.mem_cons_self y ys)) hax
          simp [insertTail, hy]
      rw [hxl]
      have h1 : insertByPriority a (x :: l) = x :: insertByPriority a l := by
        simp [insertByPriority, hax]
      have h2 : insertByPriority a l = a :: l := by
        cases l with
        | nil => rfl
        | cons y ys =>
          have hy : ¬ a.priority < y.priority :=
            not_lt.mpr (ha y (List.mem_cons_self y ys))
          simp [insertByPriority, hy]
      rw [h1, h2]
      simp [insertTail, hax]
    · have h3 : insertByPriority a (insertTail x l) = a :: insertTail x l := by
        cases l with
        | nil => simp [insertTail, insertByPriority, hax]
        | cons y ys =>
          by_cases hyx : y.priority < x.priority
          · simp [insertTail, hyx, insertByPriority, hax]
          · have hy : ¬ a.priority < y.priority :=
              not_lt.mpr (ha y (List.mem_cons_self y ys))
            simp [insertTail, hyx, insertByPriority, hy]
      rw [h3]
      simp [insertTail, hax]

/-- Insertion is a permutation with consing. -/
theorem insertTail_perm (x : SignalHandler) :
    ∀ (l : List SignalHandler), List.Perm (insertTail x l) (x :: l)
  | [] => by simp [insertTail]
  | y :: ys => by
    by_cases h : y.priority < x.priority
    · simp [insertTail, h]
    · rw [show insertTail x (y :: ys) = y :: insertTail x ys by simp [insertTail, h]]
      exact ((insertTail_perm x ys).cons y).trans (List.Perm.swap x y ys)

/-- Inserting a handler whose registration index exceeds every index in
a list that satisfies the dispatch-order invariant preserves the
invariant. -/
theorem pairwise_insertTail (x : SignalHandler) :
    ∀ (l : List SignalHandler), l.Pairwise hrel → (∀ y ∈ l, y.idx < x.idx) →
      (insertTail x l).Pairwise hrel
  | [], _, _ => by simp [insertTail]
  | y :: ys, hp, hidx => by
    obtain ⟨hy, hys⟩ := List.pairwise_cons.mp hp
    by_cases hxy : y.priority < x.priority
    · rw [show insertTail x (y :: ys) = x :: y :: ys by simp [insertTail, hxy]]
      refine List.pairwise_cons.mpr ⟨?_, hp⟩
      intro z hz
      rcases List.mem_cons.mp hz with rfl | hz2
      · exact Or.inl hxy
      · exact Or.inl (lt_of_le_of_lt (hrel_le (hy z hz2)) hxy)
    · rw [show insertTail x (y :: ys) = y :: insertTail x ys by simp [insertTail, hxy]]
      refine List.pairwise_cons.mpr
        ⟨?_, pairwise_insertTail x ys hys (fun z hz => hidx z (List.mem_cons_of_mem y hz))⟩
      intro z hz
      have hz2 : z ∈ x :: ys := (List.Perm.mem_iff (insertTail_perm x ys)).mp hz
      rcases List.mem_cons.mp hz2 with rfl | hz3
      · have hle : z.priority ≤ y.priority := not_lt.mp hxy
        rcases lt_or_eq_of_le hle with hlt | heq
        · exact Or.inl hlt
        · exact Or.inr ⟨heq.symm, hidx y (List.mem_cons_self y ys)⟩
      · exact hy z hz3

/-- Indexed lookup into an enumeration-from. -/
theorem enumFrom_get? {α : Type} :
    ∀ (n k : Nat) (l : List α),
      (List.enumFrom n l).get? k = (l.get? k).map (fun a => (n + k, a))
  | _, _, [] => by simp [List.enumFrom]
  | n, 0, a :: l => by simp [List.enumFrom]
  | n, k + 1, a :: l => by
    have h : n + (k + 1) = n + 1 + k := by omega
    show (List.enumFrom (n + 1) l).get? k = (l.get? k).map (fun a => (n + (k + 1), a))
    rw [enumFrom_get? (n + 1) k l, h]

/-- Invariant of the bind loop: starting from a handler list that
satisfies the dispatch-order invariant with all indices below the next
registration number, the loop keeps the invariant and produces, up to
permutation, one handler per bind with consecutive indices. -/
theorem bindManyAux_spec :
    ∀ (binds : List (ℚ × Bool)) (acc : List SignalHandler) (n : Nat),
      acc.Pairwise hrel → (∀ y ∈ acc, y.idx < n) →
      (bindManyAux binds acc n).Pairwise hrel
      ∧ List.Perm (bindManyAux binds acc n)
          (acc ++ (List.enumFrom n binds).map mkHandler)
  | [], acc, n, hp, _ => by
    refine ⟨hp, ?_⟩
    simp [bindManyAux, List.enumFrom]
  | pb :: rest, acc, n, hp, hidx => by
    have hwge : acc.Pairwise wge := hp.imp (fun h => hrel_le h)
    have hbind : signal_bind acc n pb.1 pb.2 = insertTail (mkHandler (n, pb)) acc :=
      pySort_sorted_append (mkHandler (n, pb)) acc hwge
    have hpw' : (insertTail (mkHandler (n, pb)) acc).Pairwise hrel :=
      pairwise_insertTail _ acc hp (fun y hy => hidx y hy)
    have hidx' : ∀ y ∈ insertTail (mkHandler (n, pb)) acc, y.idx < n + 1 := by
      intro y hy
      have hy2 : y ∈ mkHandler (n, pb) :: acc :=
        (List.Perm.mem_iff (insertTail_perm _ acc)).mp hy
      rcases List.mem_cons.mp hy2 with rfl | hy3
      · exact Nat.lt_succ_self n
      · exact Nat.lt_succ_of_lt (hidx y hy3)
    have ih := bindManyAux_spec rest (insertTail (mkHandler (n, pb)) acc) (n + 1) hpw' hidx'
    have hstep : bindManyAux (pb :: rest) acc n
        = bindManyAux rest (insertTail (mkHandler (n, pb)) acc) (n + 1) := by
      show bindManyAux rest (signal_bind acc n pb.1 pb.2) (n + 1)
        = bindManyAux rest (insertTail (mkHandler (n, pb)) acc) (n + 1)
      rw [hbind]
    refine ⟨by rw [hstep]; exact ih.1, ?_⟩
    rw [hstep]
    have h1 : List.Perm (insertTail (mkHandler (n, pb)) acc) (acc ++ [mkHandler (n, pb)]) :=
      (insertTail_perm _ acc).trans (List.perm_append_singleton _ _).symm
    have h2 : (acc ++ [mkHandler (n, pb)]) ++ (List.enumFrom (n + 1) rest).map mkHandler
        = acc ++ (List.enumFrom n (pb :: rest)).map mkHandler := by
      simp [List.append_assoc, List.enumFrom]
    exact (ih.2.trans (h1.append_right _)).trans (h2 ▸ List.Perm.refl _)

/-- The handler list after a bind sequence satisfies the dispatch-order
invariant and consists, up to permutation, of exactly one handler per
bind, carrying its registration index and clamped priority. -/
theorem bindMany_spec (binds : List (ℚ × Bool)) :
    (bindMany binds).Pairwise hrel
    ∧ List.Perm (bindMany binds) ((List.enumFrom 0 binds).map mkHandler) := by
  have h := bindManyAux_spec binds [] 0 (by simp) (by simp)
  exact ⟨h.1, by simpa using h.2⟩

/-- Every handler of a bound list carries the clamped priority of the
bind with its registration index. -/
theorem bindMany_priority (binds : List (ℚ × Bool)) :
    ∀ hdl ∈ bindMany binds, hdl.priority = priorityAt binds hdl.idx := by
  intro hdl hmem
  have hmem2 : hdl ∈ (List.enumFrom 0 binds).map mkHandler :=
    (List.Perm.mem_iff (bindMany_spec binds).2).mp hmem
  obtain ⟨k, hk⟩ := List.get?_of_mem hmem2
  rw [List.get?_map, enumFrom_get? 0 k binds] at hk
  cases hb : binds.get? k with
  | none =>
    rw [hb] at hk
    simp at hk
  | some pb =>
    rw [hb] at hk
    simp only [Option.map_some', Nat.zero_add] at hk
    cases hk
    simp [mkHandler, priorityAt, ← List.get?_eq_getElem?, hb]

/-- Every index emitted belongs to some handler of the list. -/
theorem mem_emit_order :
    ∀ (l : List SignalHandler) (i : Nat), i ∈ signal_emit_order l → ∃ a ∈ l, a.idx = i
  | [], i, h => by simp [signal_emit_order] at h
  | a :: l, i, h => by
    by_cases ha : a.active
    · rw [show signal_emit_order (a :: l)
          = a.idx :: (if a.stops then [] else signal_emit_order l) by
        simp [signal_emit_order, ha]] at h
      rcases List.mem_cons.mp h with rfl | h2
      · exact ⟨a, List.mem_cons_self a l, rfl⟩
      · by_cases hs : a.stops
        · rw [if_pos hs] at h2
          simp at h2
        · rw [if_neg hs] at h2
          obtain ⟨b, hb, hbi⟩ := mem_emit_order l i h2
          exact ⟨b, List.mem_cons_of_mem a hb, hbi⟩
    · rw [show signal_emit_order (a :: l) = signal_emit_order l by
        simp [signal_emit_order, ha]] at h
      obtain ⟨b, hb, hbi⟩ := mem_emit_order l i h
      exact ⟨b, List.mem_cons_of_mem a hb, hbi⟩

/-- A pairwise relation between handlers transfers, through their
registration indices, to the emitted invocation order. -/
theorem emit_order_pairwise (R : Nat → Nat → Prop) :
    ∀ (l : List SignalHandler), l.Pairwise (fun a b => R a.idx b.idx) →
      (signal_emit_order l).Pairwise R
  | [], _ => by simp [signal_emit_order]
  | a :: l, hp => by
    obtain ⟨ha1, hl⟩ := List.pairwise_cons.mp hp
    by_cases ha : a.active
    · rw [show signal_emit_order (a :: l)
          = a.idx :: (if a.stops then [] else signal_emit_order l) by
        simp [signal_emit_order, ha]]
      refine List.pairwise_cons.mpr ⟨?_, ?_⟩
      · intro j hj
        by_cases hs : a.stops
        · rw [if_pos hs] at hj
          simp at hj
        · rw [if_neg hs] at hj
          obtain ⟨b, hb, rfl⟩ := mem_emit_order l j hj
          exact ha1 b hb
      · by_cases hs : a.stops
        · simp [hs]
        · simpa [hs] using emit_order_pairwise R l hl
    · rw [show signal_emit_order (a :: l) = signal_emit_order l by
        simp [signal_emit_order, ha]]
      exact emit_order_pairwise R l hl

/-- C7 counterexample: two handlers bound with priorities 2 and then 3
— both clamped to 1 — are invoked in bind order [0, 1], although the
handler bound second has the strictly higher bind-time priority 3 > 2
and the claim requires it to be invoked first. -/
theorem C7_counterexample :
    signal_emit_order (bindMany [((2 : ℚ), false), ((3 : ℚ), false)]) = [0, 1]
    ∧ (2 : ℚ) < 3 := by
  exact ⟨by decide, by decide⟩

/-- C7 (amended): with priorities compared after clamping into [0, 1],
handlers are invoked on emit in order of strictly descending clamped
priority regardless of bind order, and handlers of equal clamped
priority are invoked in bind order; moreover binding produces exactly
one handler per bind, carrying its registration index and clamped
priority. -/
theorem C7_priority_order (binds : List (ℚ × Bool)) :
    List.Perm (bindMany binds) ((List.enumFrom 0 binds).map mkHandler)
    ∧ (signal_emit_order (bindMany binds)).Pairwise
        (fun i j => priorityAt binds j < priorityAt binds i
          ∨ (priorityAt binds i = priorityAt binds j ∧ i < j)) := by
  refine ⟨(bindMany_spec binds).2, ?_⟩
  have hp := (bindMany_spec binds).1
  have hcorr := bindMany_priority binds
  refine emit_order_pairwise _ (bindMany binds) (hp.imp_of_mem ?_)
  intro a b ha hb hab
  rcases hab with h | ⟨h, hidx⟩
  · left
    rw [← hcorr a ha, ← hcorr b hb]
    exact h
  · right
    rw [← hcorr a ha, ← hcorr b hb]
    exact ⟨h, hidx⟩

end Ranger
